import Mathlib

/-!
Verification of the engine access coordinator of `chesse.py`: the result
cache with FIFO eviction (lines 53-54 and 128-130), the score conversion
(lines 115-119), the evaluate-or-recover sequence under `engine_lock`
(lines 106-113) and the request handler `analyze` (lines 84-135).
First come the definitions embedding the source, then the lemmas and the
claim theorems.
-/

/-- Analysis result record: the `response_data` dict built by `analyze`
(lines 121-126 of `chesse.py`), with fields `bestmove`, `evaluation`,
`fen` and `cached`. -/
structure AnalysisResult where
  bestmove : String
  evaluation : Int
  fen : String
  cached : Bool
deriving DecidableEq, Repr

/-- Line 54: `MAX_CACHE_SIZE = 512`. -/
def MAX_CACHE_SIZE : Nat := 512

/-- The `position_cache` dict, modelled as its association list in insertion
order (Python 3.7+ dicts iterate in insertion order, and overwriting a key
keeps its position). -/
abbrev Cache := List (String × AnalysisResult)

/-- Python dict read `d[k]` / membership `k in d`. -/
def dictGet : Cache → String → Option AnalysisResult
  | [], _ => none
  | (k', v) :: t, k => if k' = k then some v else dictGet t k

/-- Python dict write `d[k] = v`: overwrite in place when `k` is present
(its position in iteration order is unchanged), otherwise append at the
end of the iteration order. -/
def dictSet : Cache → String → AnalysisResult → Cache
  | [], k, v => [(k, v)]
  | (k', v') :: t, k, v =>
    if k' = k then (k, v) :: t else (k', v') :: dictSet t k v

/-- Line 129: `position_cache.pop(next(iter(position_cache)))` removes the
first key in insertion order; `none` models the `StopIteration` that
`next` raises on an empty dict. -/
def evictOldest : Cache → Option Cache
  | [] => none
  | _ :: t => some t

/-- Lines 128-130 of `analyze`: if `len(position_cache) >= MAX_CACHE_SIZE`
evict the oldest entry, then insert (a copy of) the response under the
request's fen. -/
def cachePut (c : Cache) (k : String) (v : AnalysisResult) : Option Cache :=
  if MAX_CACHE_SIZE ≤ c.length then
    match evictOldest c with
    | none => none
    | some c₀ => some (dictSet c₀ k v)
  else
    some (dictSet c k v)

/-- Engine score, as in `chess.engine`: a centipawn value or a mate
distance. -/
inductive Score
  | cp (c : Int)
  | mate (n : Int)
deriving DecidableEq, Repr

/-- Side to move of the analysed position. -/
inductive Side
  | white
  | black
deriving DecidableEq, Repr

/-- Modelled from the spec: the engine reports its score from the mover's
perspective, so the raw `result['score']` is a relative score paired with
the side to move (python-chess `PovScore`, not part of src/). -/
structure PovScore where
  rel : Score
  turn : Side
deriving DecidableEq, Repr

/-- Score negation (perspective flip), as in python-chess. -/
def Score.neg : Score → Score
  | .cp c => .cp (-c)
  | .mate n => .mate (-n)

/-- Modelled from the spec: `result['score'].white()` (line 115) converts
the mover-relative score to the absolute white-positive perspective,
flipping the sign when Black is to move (python-chess, not part of src/). -/
def PovScore.white (p : PovScore) : Score :=
  match p.turn with
  | .white => p.rel
  | .black => p.rel.neg

/-- Lines 116-119: mate scores collapse to the sentinel `10000` when
`score.mate() > 0` and `-10000` otherwise; non-mate scores are returned as
their centipawn value. -/
def scoreToEval : Score → Int
  | .mate n => if 0 < n then 10000 else -10000
  | .cp c => c

/-- Modelled from the spec: a white-perspective mate score is favorable to
White exactly when its mate distance is positive (White is the side
delivering the mate). -/
def mateFavorsWhite : Score → Bool
  | .mate n => decide (0 < n)
  | .cp _ => false

/-- Outcomes supplied by the environment: the i-th `engine.analyse` call of
the service's lifetime (its reported score, or `none` for a raised
`EngineError`), the i-th `engine.play` call (the best move in UCI form, or
`none` for a raise), and whether the i-th `initialize_engine` call manages
to start and configure a replacement process. -/
structure EngineWorld where
  analyseOutcome : Nat → Option PovScore
  playOutcome : Nat → Option String
  restartOk : Nat → Bool

/-- Mutable module state of `chesse.py` seen by `analyze`: the
`position_cache` dict plus counters of how many `engine.analyse`,
`engine.play` and `initialize_engine` calls have happened so far. -/
structure ServerState where
  cache : Cache
  nAnalyse : Nat
  nPlay : Nat
  nInit : Nat
deriving DecidableEq, Repr

/-- HTTP response of the handler: a 200 payload or an error status with a
message. -/
inductive Response
  | ok (r : AnalysisResult)
  | err (code : Nat) (msg : String)
deriving DecidableEq, Repr

/-- HTTP status code of a response. -/
def Response.status : Response → Nat
  | .ok _ => 200
  | .err code _ => code

/-- One evaluate attempt, lines 108-109 (identically lines 112-113): an
`engine.analyse` call followed by an `engine.play` call; `none` models an
exception escaping the pair, and the counters record which calls were
actually issued. -/
def evalAttempt (w : EngineWorld) (s : ServerState) :
    Option (PovScore × String) × ServerState :=
  match w.analyseOutcome s.nAnalyse with
  | none => (none, { s with nAnalyse := s.nAnalyse + 1 })
  | some sc =>
    let s₁ : ServerState := { s with nAnalyse := s.nAnalyse + 1 }
    match w.playOutcome s₁.nPlay with
    | none => (none, { s₁ with nPlay := s₁.nPlay + 1 })
    | some mv => (some (sc, mv), { s₁ with nPlay := s₁.nPlay + 1 })

/-- Lines 56-70, `initialize_engine`, as observed from the recovery path of
`analyze`: the `engine.quit()` of the old process is wrapped in a bare
`try/except: pass` and never raises; starting and configuring the
replacement succeeds iff the environment says so, and a `false` outcome
models the raised start error. -/
def initialize_engine (w : EngineWorld) (s : ServerState) : Bool × ServerState :=
  (w.restartOk s.nInit, { s with nInit := s.nInit + 1 })

/-- Lines 106-113, the body of `with engine_lock:`: one evaluate attempt,
and on its failure exactly one `initialize_engine` restart followed by
exactly one retried attempt; `none` is the exception propagating out of
the block (the context manager releases the lock either way). -/
def lockedEvaluate (w : EngineWorld) (s : ServerState) :
    Option (PovScore × String) × ServerState :=
  match evalAttempt w s with
  | (some r, s₁) => (some r, s₁)
  | (none, s₁) =>
    match initialize_engine w s₁ with
    | (false, s₂) => (none, s₂)
    | (true, s₂) => evalAttempt w s₂

/-- The `analyze` request handler (lines 84-135).  `data` models
`request.get_json()` together with its `fen` field (`none` for a
missing/falsy body, for example invalid JSON); `parseOk fen` models whether
`chess.Board(fen)` succeeds (python-chess, not part of src/); any exception
reaching the outer handler becomes a 500 with the exception text. -/
def analyze (w : EngineWorld) (parseOk : String → Bool)
    (data : Option (Option String)) (s : ServerState) :
    Response × ServerState :=
  match data with
  | none => (.err 400 "Invalid JSON", s)
  | some fenOpt =>
    let fen := fenOpt.getD ""
    if fen = "" then (.err 400 "No FEN provided", s)
    else
      match dictGet s.cache fen with
      | some stored => (.ok { stored with cached := true }, s)
      | none =>
        if parseOk fen then
          match lockedEvaluate w s with
          | (none, s₁) => (.err 500 "engine error", s₁)
          | (some (sc, mv), s₁) =>
            let response_data : AnalysisResult :=
              { bestmove := mv, evaluation := scoreToEval sc.white,
                fen := fen, cached := false }
            match cachePut s₁.cache fen response_data with
            | none => (.err 500 "StopIteration", s₁)
            | some c' => (.ok response_data, { s₁ with cache := c' })
        else (.err 500 "invalid fen", s)

/-- Atomic events of the miss path of `analyze` as they relate to
`engine_lock`. -/
inductive Instr
  | acquire
  | release
  | callStart
  | callEnd
  | restartCall
  | cacheWrite
deriving DecidableEq, Repr

/-- Miss path with both engine calls succeeding: lines 106-113 (lock entry,
`analyse`, `play`, lock exit) followed by the cache write of lines
128-130, which the source performs after the `with` block has exited. -/
def missProgramOk : List Instr :=
  [.acquire, .callStart, .callEnd, .callStart, .callEnd, .release, .cacheWrite]

/-- Miss path where the first attempt raises and the recovery succeeds:
failed call, restart, retried `analyse` and `play`, then the cache write
after the lock is released. -/
def missProgramRecover : List Instr :=
  [.acquire, .callStart, .callEnd, .restartCall, .callStart, .callEnd,
   .callStart, .callEnd, .release, .cacheWrite]

/-- Miss path where the recovery also fails: the exception propagates, the
context manager releases the lock on the way out, and no cache write
happens. -/
def missProgramFail : List Instr :=
  [.acquire, .callStart, .callEnd, .restartCall, .callStart, .callEnd, .release]

/-- State of the interleaving system: the remaining code of every thread
(threads beyond the active ones run the empty program) and the current
owner of `engine_lock`. -/
structure MuState where
  threads : Nat → List Instr
  lock : Option Nat

/-- Interleaving small-step semantics: some thread executes its next
instruction.  `acquire` blocks until the lock is free and `release`
requires ownership (the `with` statement only releases what it acquired);
every other instruction is always enabled — nothing but the lock
discipline itself prevents an engine call without the lock. -/
inductive MuStep : MuState → MuState → Prop
  | acquire (σ : MuState) (i : Nat) (rest : List Instr)
      (hi : σ.threads i = .acquire :: rest)
      (hl : σ.lock = none) :
      MuStep σ { threads := Function.update σ.threads i rest, lock := some i }
  | release (σ : MuState) (i : Nat) (rest : List Instr)
      (hi : σ.threads i = .release :: rest)
      (hl : σ.lock = some i) :
      MuStep σ { threads := Function.update σ.threads i rest, lock := none }
  | plain (σ : MuState) (i : Nat) (c : Instr) (rest : List Instr)
      (hi : σ.threads i = c :: rest)
      (hc : c ≠ .acquire) (hc' : c ≠ .release) :
      MuStep σ { threads := Function.update σ.threads i rest, lock := σ.lock }

/-- Reachability in the interleaving semantics. -/
def MuReach : MuState → MuState → Prop :=
  Relation.ReflTransGen MuStep

/-- Occurrence of an instruction in a program. -/
def hasInstr (x : Instr) : List Instr → Bool
  | [] => false
  | c :: r => if c = x then true else hasInstr x r

/-- A thread whose remaining code still contains the `release` of its
critical section but no longer its `acquire` is inside the critical
section, holding the lock. -/
def holdsLock (r : List Instr) : Bool :=
  hasInstr .release r && ! hasInstr .acquire r

/-- An engine call is in flight in a thread exactly when the thread's next
instruction is the end of a call it has already started. -/
def inFlight : List Instr → Bool
  | .callEnd :: _ => true
  | _ => false

/-- Lock discipline of a thread's remaining code: every engine call still
to finish runs while the lock is held, and stepping past the `release`
leaves the critical section for good. -/
def codeOk : List Instr → Bool
  | [] => true
  | c :: r =>
    (if c = .callEnd then holdsLock (c :: r) else true) &&
    (if c = .release then ! holdsLock r else true) &&
    codeOk r

/-- Checks that every `cacheWrite` of the program runs while the thread
holds the lock. -/
def writesUnderLock : List Instr → Bool
  | [] => true
  | c :: r =>
    (if c = .cacheWrite then holdsLock (c :: r) else true) && writesUnderLock r

/-- Global invariant of the interleaving system: every thread's remaining
code obeys the lock discipline, and any thread currently inside its
critical section is the recorded owner of `engine_lock`. -/
def MuInv (σ : MuState) : Prop :=
  (∀ i, codeOk (σ.threads i) = true) ∧
  (∀ i, holdsLock (σ.threads i) = true → σ.lock = some i)

/-- Reference lookup in the cache's key-to-reference table. -/
def lookupRef : List (String × Nat) → String → Option Nat
  | [], _ => none
  | (k', r) :: t, k => if k' = k then some r else lookupRef t k

/-- Heap-and-cache state for the hit path: a heap of `AnalysisResult`
records addressed by references below `next`, and the `position_cache`
table mapping fens to references into the heap. -/
structure RefHeap where
  heap : Nat → Option AnalysisResult
  next : Nat
  refsCache : List (String × Nat)

/-- Lines 99-102 of `analyze` with the heap made explicit:
`cached = position_cache[fen].copy()` allocates a fresh record holding the
same fields, `cached['cached'] = True` mutates only that fresh record, and
the response refers to the copy.  `none` is a cache miss (line 99 guard
false). -/
def hitPath (st : RefHeap) (fen : String) : Option (RefHeap × Nat) :=
  match lookupRef st.refsCache fen with
  | none => none
  | some r₀ =>
    match st.heap r₀ with
    | none => none
    | some a =>
      let r₁ := st.next
      let st₁ : RefHeap :=
        { heap := Function.update st.heap r₁ (some a),
          next := st.next + 1, refsCache := st.refsCache }
      let st₂ : RefHeap :=
        { st₁ with
          heap := Function.update st₁.heap r₁ (some { a with cached := true }) }
      some (st₂, r₁)

/-- Initial server state: empty cache, no engine calls yet. -/
def s₀ : ServerState := { cache := [], nAnalyse := 0, nPlay := 0, nInit := 0 }

/-- Environment in which every engine call raises and every restart fails. -/
def failWorld : EngineWorld :=
  { analyseOutcome := fun _ => none, playOutcome := fun _ => none,
    restartOk := fun _ => false }

/-- Environment in which every engine call succeeds with a fixed score. -/
def okWorld : EngineWorld :=
  { analyseOutcome := fun _ => some { rel := .cp 25, turn := .white },
    playOutcome := fun _ => some "e2e4",
    restartOk := fun _ => true }

/-- Position-parse oracle accepting every string. -/
def allParse : String → Bool := fun _ => true

/-- Position-parse oracle rejecting every string. -/
def noParse : String → Bool := fun _ => false

/-- Result value used by the concrete witnesses. -/
def defaultResult : AnalysisResult :=
  { bestmove := "e2e4", evaluation := 0, fen := "f", cached := false }

/-- Second result value used by the concrete witnesses. -/
def otherResult : AnalysisResult :=
  { bestmove := "d2d4", evaluation := 12, fen := "x", cached := false }

set_option maxRecDepth 4096 in
/-- A cache filled to capacity with 512 distinct keys "0" .. "511", in
insertion order. -/
def fullCache : Cache :=
  (List.range MAX_CACHE_SIZE).map (fun i => (toString i, defaultResult))

/-- Initial interleaving state used by the mutual-exclusion witness: every
thread about to run the successful miss path. -/
def muInit : MuState := { threads := fun _ => missProgramOk, lock := none }

/-- Heap-and-cache state used by the copy witness: one stored entry for
"f" at reference 0. -/
def hitHeap : RefHeap :=
  { heap := fun j => if j = 0 then some defaultResult else none,
    next := 1, refsCache := [("f", 0)] }

/-!
Lemmas: dict operations, lock discipline, evaluate-or-recover shapes.
-/

theorem dictSet_absent (c : Cache) (k : String) (v : AnalysisResult)
    (h : dictGet c k = none) : dictSet c k v = c ++ [(k, v)] := by
  induction c with
  | nil => rfl
  | cons e t ih =>
    obtain ⟨k', v'⟩ := e
    by_cases hk : k' = k
    · simp [dictGet, hk] at h
    · simp only [dictGet, if_neg hk] at h
      simp [dictSet, if_neg hk, ih h]

theorem dictSet_length_present (c : Cache) (k : String) (v v₀ : AnalysisResult)
    (h : dictGet c k = some v₀) : (dictSet c k v).length = c.length := by
  induction c with
  | nil => simp [dictGet] at h
  | cons e t ih =>
    obtain ⟨k', v'⟩ := e
    by_cases hk : k' = k
    · simp [dictSet, if_pos hk]
    · simp only [dictGet, if_neg hk] at h
      simp [dictSet, if_neg hk, ih h]

theorem dictSet_keys_present (c : Cache) (k : String) (v v₀ : AnalysisResult)
    (h : dictGet c k = some v₀) :
    (dictSet c k v).map Prod.fst = c.map Prod.fst := by
  induction c with
  | nil => simp [dictGet] at h
  | cons e t ih =>
    obtain ⟨k', v'⟩ := e
    by_cases hk : k' = k
    · simp only [dictGet, if_pos hk, Option.some.injEq] at h
      simp [dictSet, if_pos hk, hk]
    · simp only [dictGet, if_neg hk] at h
      simp [dictSet, if_neg hk, ih h]

theorem dictGet_dictSet_self (c : Cache) (k : String) (v : AnalysisResult) :
    dictGet (dictSet c k v) k = some v := by
  induction c with
  | nil => simp [dictSet, dictGet]
  | cons e t ih =>
    obtain ⟨k', v'⟩ := e
    by_cases hk : k' = k
    · simp [dictSet, if_pos hk, dictGet]
    · simp [dictSet, if_neg hk, dictGet, if_neg hk, ih]

theorem dictGet_dictSet_ne (c : Cache) (k k' : String) (v : AnalysisResult)
    (h : k' ≠ k) : dictGet (dictSet c k v) k' = dictGet c k' := by
  induction c with
  | nil => simp [dictSet, dictGet, if_neg (Ne.symm h)]
  | cons e t ih =>
    obtain ⟨k₀, v₀⟩ := e
    by_cases hk : k₀ = k
    · subst hk
      simp only [dictSet, if_pos rfl, dictGet]
      rw [if_neg (Ne.symm h), if_neg (Ne.symm h)]
    · simp only [dictSet, if_neg hk, dictGet]
      by_cases hk' : k₀ = k'
      · simp [if_pos hk']
      · simp [if_neg hk', ih]

theorem dictSet_length_le (c : Cache) (k : String) (v : AnalysisResult) :
    (dictSet c k v).length ≤ c.length + 1 := by
  induction c with
  | nil => simp [dictSet]
  | cons e t ih =>
    obtain ⟨k', v'⟩ := e
    by_cases hk : k' = k
    · simp [dictSet, if_pos hk]
    · simp only [dictSet, if_neg hk, List.length_cons]
      omega

theorem dictSet_length_ge (c : Cache) (k : String) (v : AnalysisResult) :
    c.length ≤ (dictSet c k v).length := by
  induction c with
  | nil => simp [dictSet]
  | cons e t ih =>
    obtain ⟨k', v'⟩ := e
    by_cases hk : k' = k
    · simp [dictSet, if_pos hk]
    · simp only [dictSet, if_neg hk, List.length_cons]
      omega

theorem dictGet_cons_none {e : String × AnalysisResult} {t : Cache} {k : String}
    (h : dictGet (e :: t) k = none) : dictGet t k = none := by
  obtain ⟨k', v'⟩ := e
  by_cases hk : k' = k
  · simp [dictGet, hk] at h
  · simpa [dictGet, hk] using h

theorem mem_keys_of_dictGet {c : Cache} {k : String} {v₀ : AnalysisResult}
    (h : dictGet c k = some v₀) : k ∈ c.map Prod.fst := by
  induction c with
  | nil => simp [dictGet] at h
  | cons e t ih =>
    obtain ⟨k', v'⟩ := e
    by_cases hk : k' = k
    · simp [hk]
    · simp only [dictGet, if_neg hk] at h
      simp [ih h]

theorem cachePut_isSome (c : Cache) (k : String) (v : AnalysisResult) :
    (cachePut c k v).isSome = true := by
  unfold cachePut
  split
  · rename_i h
    cases c with
    | nil => simp [MAX_CACHE_SIZE] at h
    | cons e t => simp [evictOldest]
  · simp

theorem dictGet_cachePut_self (c : Cache) (k : String) (v : AnalysisResult)
    (c' : Cache) (h : cachePut c k v = some c') : dictGet c' k = some v := by
  unfold cachePut at h
  split at h
  · cases c with
    | nil => simp [evictOldest] at h
    | cons e t =>
      simp only [evictOldest] at h
      injection h with h'
      rw [← h']
      exact dictGet_dictSet_self t k v
  · injection h with h'
    rw [← h']
    exact dictGet_dictSet_self c k v

theorem holdsLock_plain (c : Instr) (r : List Instr)
    (hc : c ≠ .acquire) (hc' : c ≠ .release) :
    holdsLock (c :: r) = holdsLock r := by
  simp [holdsLock, hasInstr, if_neg hc, if_neg hc']

theorem codeOk_tail {c : Instr} {r : List Instr} (h : codeOk (c :: r) = true) :
    codeOk r = true := by
  simp only [codeOk, Bool.and_eq_true] at h
  exact h.2

theorem codeOk_inFlight {r : List Instr} (h : codeOk r = true)
    (hf : inFlight r = true) : holdsLock r = true := by
  match r with
  | [] => simp [inFlight] at hf
  | .callEnd :: r' =>
    simp only [codeOk, if_pos rfl, Bool.and_eq_true] at h
    exact h.1.1
  | .acquire :: r' => simp [inFlight] at hf
  | .release :: r' => simp [inFlight] at hf
  | .callStart :: r' => simp [inFlight] at hf
  | .restartCall :: r' => simp [inFlight] at hf
  | .cacheWrite :: r' => simp [inFlight] at hf

theorem codeOk_release {r : List Instr} (h : codeOk (.release :: r) = true) :
    holdsLock r = false := by
  simp only [codeOk, Bool.and_eq_true] at h
  have h₂ := h.1.2
  simp at h₂
  exact h₂

theorem muStep_inv {σ σ' : MuState} (h : MuStep σ σ') (hI : MuInv σ) :
    MuInv σ' := by
  obtain ⟨hcode, hown⟩ := hI
  cases h with
  | acquire i rest hi hl =>
    refine ⟨fun j => ?_, fun j hj => ?_⟩
    · by_cases hj : j = i
      · subst hj
        simp only [Function.update_same]
        exact codeOk_tail (hi ▸ hcode j)
      · simp only [Function.update_noteq hj]
        exact hcode j
    · by_cases hji : j = i
      · subst hji; rfl
      · simp only [Function.update_noteq hji] at hj
        have hc := hown j hj
        rw [hl] at hc
        cases hc
  | release i rest hi hl =>
    refine ⟨fun j => ?_, fun j hj => ?_⟩
    · by_cases hj : j = i
      · subst hj
        simp only [Function.update_same]
        exact codeOk_tail (hi ▸ hcode j)
      · simp only [Function.update_noteq hj]
        exact hcode j
    · by_cases hji : j = i
      · subst hji
        simp only [Function.update_same] at hj
        have hrel := codeOk_release (hi ▸ hcode j)
        rw [hj] at hrel
        cases hrel
      · simp only [Function.update_noteq hji] at hj
        have hc := hown j hj
        rw [hl] at hc
        injection hc with hc'
        exact absurd hc'.symm hji
  | plain i c rest hi hck hck' =>
    refine ⟨fun j => ?_, fun j hj => ?_⟩
    · by_cases hj : j = i
      · subst hj
        simp only [Function.update_same]
        exact codeOk_tail (hi ▸ hcode j)
      · simp only [Function.update_noteq hj]
        exact hcode j
    · by_cases hji : j = i
      · subst hji
        simp only [Function.update_same] at hj
        have := hown j
        rw [hi, holdsLock_plain c rest hck hck', hj] at this
        exact this rfl
      · simp only [Function.update_noteq hji] at hj
        exact hown j hj

theorem muReach_inv {σ σ' : MuState} (h : MuReach σ σ') (hI : MuInv σ) :
    MuInv σ' := by
  induction h with
  | refl => exact hI
  | tail _ hstep ih => exact muStep_inv hstep ih

/-- Under the invariant no two threads can have an engine call in flight
at the same time. -/
theorem muInv_mutex {σ : MuState} (hI : MuInv σ) :
    ¬ ∃ i j, i ≠ j ∧ inFlight (σ.threads i) = true ∧
      inFlight (σ.threads j) = true := by
  rintro ⟨i, j, hij, hi, hj⟩
  obtain ⟨hcode, hown⟩ := hI
  have h₁ := hown i (codeOk_inFlight (hcode i) hi)
  have h₂ := hown j (codeOk_inFlight (hcode j) hj)
  rw [h₁] at h₂
  injection h₂ with h₃
  exact hij h₃

theorem evalAttempt_cache (w : EngineWorld) (s : ServerState) :
    (evalAttempt w s).2.cache = s.cache := by
  unfold evalAttempt
  cases w.analyseOutcome s.nAnalyse
  · rfl
  · dsimp only
    cases w.playOutcome s.nPlay
    · rfl
    · rfl

theorem lockedEvaluate_first_ok (w : EngineWorld) (s : ServerState)
    (sc : PovScore) (mv : String)
    (ha : w.analyseOutcome s.nAnalyse = some sc)
    (hp : w.playOutcome s.nPlay = some mv) :
    lockedEvaluate w s =
      (some (sc, mv),
       { s with nAnalyse := s.nAnalyse + 1, nPlay := s.nPlay + 1 }) := by
  unfold lockedEvaluate evalAttempt
  rw [ha]
  dsimp only
  rw [hp]

theorem lockedEvaluate_all_fail (w : EngineWorld) (s : ServerState)
    (hfail : ∀ i, w.analyseOutcome i = none) :
    lockedEvaluate w s =
      (none,
       if w.restartOk s.nInit then
         { s with nAnalyse := s.nAnalyse + 2, nInit := s.nInit + 1 }
       else
         { s with nAnalyse := s.nAnalyse + 1, nInit := s.nInit + 1 }) := by
  unfold lockedEvaluate evalAttempt initialize_engine
  rw [hfail s.nAnalyse]
  dsimp only
  cases hr : w.restartOk s.nInit
  · simp only [Bool.false_eq_true, if_false]
  · dsimp only
    rw [hfail (s.nAnalyse + 1)]
    simp only [if_true]

theorem lockedEvaluate_cache (w : EngineWorld) (s : ServerState) :
    (lockedEvaluate w s).2.cache = s.cache := by
  unfold lockedEvaluate
  rcases hA : evalAttempt w s with ⟨r, s₁⟩
  have hc₁ : s₁.cache = s.cache := by
    have h := evalAttempt_cache w s
    rw [hA] at h
    exact h
  cases r with
  | some v => exact hc₁
  | none =>
    dsimp only
    unfold initialize_engine
    cases w.restartOk s₁.nInit
    · dsimp only
      exact hc₁
    · dsimp only
      rw [evalAttempt_cache w { s₁ with nInit := s₁.nInit + 1 }]
      exact hc₁

theorem analyze_hit (w : EngineWorld) (p : String → Bool) (fen : String)
    (s : ServerState) (stored : AnalysisResult)
    (hfen : fen ≠ "") (hhit : dictGet s.cache fen = some stored) :
    analyze w p (some (some fen)) s = (.ok { stored with cached := true }, s) := by
  unfold analyze
  simp only [Option.getD_some]
  rw [if_neg hfen, hhit]

theorem analyze_miss_fail (w : EngineWorld) (p : String → Bool) (fen : String)
    (s s₁ : ServerState) (hfen : fen ≠ "")
    (hmiss : dictGet s.cache fen = none) (hparse : p fen = true)
    (hlock : lockedEvaluate w s = (none, s₁)) :
    analyze w p (some (some fen)) s = (.err 500 "engine error", s₁) := by
  unfold analyze
  simp only [Option.getD_some]
  rw [if_neg hfen, hmiss, if_pos hparse, hlock]

theorem analyze_miss_ok (w : EngineWorld) (p : String → Bool) (fen : String)
    (s s₁ : ServerState) (c' : Cache) (sc : PovScore) (mv : String)
    (hfen : fen ≠ "") (hmiss : dictGet s.cache fen = none)
    (hparse : p fen = true)
    (hlock : lockedEvaluate w s = (some (sc, mv), s₁))
    (hput : cachePut s₁.cache fen
      { bestmove := mv, evaluation := scoreToEval sc.white,
        fen := fen, cached := false } = some c') :
    analyze w p (some (some fen)) s =
      (.ok { bestmove := mv, evaluation := scoreToEval sc.white,
             fen := fen, cached := false },
       { s₁ with cache := c' }) := by
  unfold analyze
  simp only [Option.getD_some]
  rw [if_neg hfen, hmiss, if_pos hparse, hlock]
  dsimp only
  rw [hput]

/-!
Claim theorems.
-/

/-- C1 (amended): for any number of concurrent miss-path `analyze` calls —
each thread running one of the miss-path programs, idle threads the empty
program — no two engine calls are ever in flight concurrently in any
reachable interleaving, because every engine call runs inside the
`engine_lock` critical section; however the mutual-exclusion primitive is
not held through the cache write: the miss-path programs perform the cache
update of lines 128-130 strictly after the release. -/
theorem analyze_mutual_exclusion (σ₀ σ : MuState)
    (hinit : ∀ i, σ₀.threads i ∈
      [missProgramOk, missProgramRecover, missProgramFail, ([] : List Instr)])
    (hlock : σ₀.lock = none) (hreach : MuReach σ₀ σ) :
    (¬ ∃ i j, i ≠ j ∧ inFlight (σ.threads i) = true ∧
      inFlight (σ.threads j) = true) ∧
    writesUnderLock missProgramOk = false ∧
    writesUnderLock missProgramRecover = false := by
  clear hlock
  have hInv₀ : MuInv σ₀ := by
    constructor
    · intro i
      have h := hinit i
      simp only [List.mem_cons, List.not_mem_nil, or_false] at h
      rcases h with h | h | h | h <;> rw [h] <;> decide
    · intro i hI
      have h := hinit i
      simp only [List.mem_cons, List.not_mem_nil, or_false] at h
      rcases h with h | h | h | h <;> rw [h] at hI <;>
        exact absurd hI (by decide)
  exact ⟨muInv_mutex (muReach_inv hreach hInv₀), by decide, by decide⟩

/-- Witness for C1: the theorem applied to the initial state in which every
thread is about to run the successful miss path, reachable by the empty
step sequence. -/
theorem analyze_mutual_exclusion_witness :
    (¬ ∃ i j, i ≠ j ∧ inFlight (muInit.threads i) = true ∧
      inFlight (muInit.threads j) = true) ∧
    writesUnderLock missProgramOk = false ∧
    writesUnderLock missProgramRecover = false :=
  analyze_mutual_exclusion muInit muInit (fun i => List.mem_cons_self _ _) rfl
    Relation.ReflTransGen.refl

/-- Counterexample for C1: the successful miss path does contain a cache
write, yet not every cache write runs while the thread holds the lock —
the `with engine_lock:` block ends at line 113 and the cache update of
lines 128-130 executes after the release, contradicting the claim that the
mutual-exclusion primitive is held through the cache write. -/
theorem cacheWrite_outside_lock_cex :
    hasInstr .cacheWrite missProgramOk = true ∧
    writesUnderLock missProgramOk = false := by
  exact ⟨by decide, by decide⟩

/-- C2: within a single `analyze` call in which the engine fails on every
evaluate attempt, the call returns an error result (HTTP 500, the spec's
`EngineUnavailable`), performs exactly one restart attempt
(`initialize_engine` is called exactly once; it best-effort terminates the
failed process and starts one replacement), and retries evaluate at most
once (at most two `analyse` calls in total) — never looping, the handler
being straight-line code. -/
theorem engine_failure_single_restart (w : EngineWorld) (p : String → Bool)
    (fen : String) (s : ServerState)
    (hfen : fen ≠ "") (hmiss : dictGet s.cache fen = none)
    (hparse : p fen = true)
    (hfail : ∀ i, w.analyseOutcome i = none) :
    (analyze w p (some (some fen)) s).1.status = 500 ∧
    (analyze w p (some (some fen)) s).2.nInit = s.nInit + 1 ∧
    s.nAnalyse + 1 ≤ (analyze w p (some (some fen)) s).2.nAnalyse ∧
    (analyze w p (some (some fen)) s).2.nAnalyse ≤ s.nAnalyse + 2 ∧
    (analyze w p (some (some fen)) s).2.nPlay = s.nPlay := by
  have hlock := lockedEvaluate_all_fail w s hfail
  cases hr : w.restartOk s.nInit <;> rw [hr] at hlock
  · simp only [Bool.false_eq_true, if_false] at hlock
    rw [analyze_miss_fail w p fen s _ hfen hmiss hparse hlock]
    exact ⟨rfl, rfl, by dsimp; omega, by dsimp; omega, rfl⟩
  · simp only [if_true] at hlock
    rw [analyze_miss_fail w p fen s _ hfen hmiss hparse hlock]
    exact ⟨rfl, rfl, by dsimp; omega, by dsimp; omega, rfl⟩

/-- Witness for C2: the theorem applied to an environment in which every
engine call raises and every restart fails. -/
theorem engine_failure_single_restart_witness :
    (analyze failWorld allParse (some (some "f")) s₀).1.status = 500 ∧
    (analyze failWorld allParse (some (some "f")) s₀).2.nInit = s₀.nInit + 1 ∧
    s₀.nAnalyse + 1 ≤ (analyze failWorld allParse (some (some "f")) s₀).2.nAnalyse ∧
    (analyze failWorld allParse (some (some "f")) s₀).2.nAnalyse ≤ s₀.nAnalyse + 2 ∧
    (analyze failWorld allParse (some (some "f")) s₀).2.nPlay = s₀.nPlay :=
  engine_failure_single_restart failWorld allParse "f" s₀ (by decide) rfl rfl
    (fun _ => rfl)

/-- C3: on an uncached position, when the first engine evaluation fails and
the recovery (restart plus single retry) also fails — that is, the whole
`with engine_lock:` block raises — `analyze` returns an error (HTTP 500)
and the cache is exactly as it was before the call: no entry inserted,
evicted or modified. -/
theorem engine_failure_cache_unchanged (w : EngineWorld) (p : String → Bool)
    (fen : String) (s s₁ : ServerState)
    (hfen : fen ≠ "") (hmiss : dictGet s.cache fen = none)
    (hparse : p fen = true)
    (hlock : lockedEvaluate w s = (none, s₁)) :
    (analyze w p (some (some fen)) s).1.status = 500 ∧
    (analyze w p (some (some fen)) s).2.cache = s.cache := by
  rw [analyze_miss_fail w p fen s s₁ hfen hmiss hparse hlock]
  refine ⟨rfl, ?_⟩
  have h := lockedEvaluate_cache w s
  rw [hlock] at h
  exact h

/-- Witness for C3: the theorem applied to the all-failing environment on
an empty cache. -/
theorem engine_failure_cache_unchanged_witness :
    (analyze failWorld allParse (some (some "f")) s₀).1.status = 500 ∧
    (analyze failWorld allParse (some (some "f")) s₀).2.cache = s₀.cache :=
  engine_failure_cache_unchanged failWorld allParse "f" s₀
    { cache := [], nAnalyse := 1, nPlay := 0, nInit := 1 }
    (by decide) rfl rfl rfl

/-- C4: the cache size never exceeds `MAX_CACHE_SIZE` = 512 under any put;
inserting a fresh key into a cache at capacity evicts exactly one entry —
the earliest-inserted key still present, the head of the insertion order —
keeping every other entry in order (FIFO, not LRU) and appending the new
key; and a lookup (the hit path of `analyze`) leaves the state, hence the
eviction order, unchanged. -/
theorem cache_capacity_invariant :
    (∀ (c : Cache) (k : String) (v : AnalysisResult) (c' : Cache),
      c.length ≤ MAX_CACHE_SIZE → cachePut c k v = some c' →
      c'.length ≤ MAX_CACHE_SIZE) ∧
    (∀ (c : Cache) (k : String) (v : AnalysisResult),
      c.length = MAX_CACHE_SIZE → dictGet c k = none →
      cachePut c k v = some (c.tail ++ [(k, v)])) ∧
    (∀ (w : EngineWorld) (p : String → Bool) (fen : String) (s : ServerState)
      (stored : AnalysisResult), fen ≠ "" → dictGet s.cache fen = some stored →
      (analyze w p (some (some fen)) s).2 = s) := by
  refine ⟨fun c k v c' hle hput => ?_, fun c k v hlen hmiss => ?_,
    fun w p fen s stored hfen hhit => ?_⟩
  · unfold cachePut at hput
    split at hput
    · rename_i h
      cases c with
      | nil => simp [evictOldest] at hput
      | cons e t =>
        simp only [evictOldest] at hput
        injection hput with h'
        subst h'
        have hl := dictSet_length_le t k v
        simp only [List.length_cons] at hle
        omega
    · rename_i h
      injection hput with h'
      subst h'
      have hl := dictSet_length_le c k v
      omega
  · unfold cachePut
    rw [if_pos (le_of_eq hlen.symm)]
    cases c with
    | nil => simp [MAX_CACHE_SIZE] at hlen
    | cons e t =>
      simp only [evictOldest, List.tail_cons]
      rw [dictSet_absent t k v (dictGet_cons_none hmiss)]
  · rw [analyze_hit w p fen s stored hfen hhit]

set_option maxRecDepth 8192 in
/-- Witness for C4: the capacity bound applied to an empty cache, the
eviction equation applied to the full 512-entry cache with a fresh key,
and the lookup part applied to a one-entry cache hit. -/
theorem cache_capacity_invariant_witness :
    ([("a", defaultResult)] : Cache).length ≤ MAX_CACHE_SIZE ∧
    cachePut fullCache "new" defaultResult =
      some (fullCache.tail ++ [("new", defaultResult)]) ∧
    (analyze okWorld allParse (some (some "f"))
      { cache := [("f", defaultResult)], nAnalyse := 0, nPlay := 0,
        nInit := 0 }).2 =
      { cache := [("f", defaultResult)], nAnalyse := 0, nPlay := 0,
        nInit := 0 } :=
  ⟨cache_capacity_invariant.1 [] "a" defaultResult _ (by decide) rfl,
   cache_capacity_invariant.2.1 fullCache "new" defaultResult (by decide)
     (by decide),
   cache_capacity_invariant.2.2 okWorld allParse "f" _ defaultResult
     (by decide) rfl⟩

set_option maxRecDepth 8192 in
/-- Counterexample for C5: with the cache at capacity 512 and key "5"
present, putting a new value for "5" still evicts the oldest entry "0" —
the claim that a put of an already-present key evicts no other entry even
when the cache is at capacity is false, because line 128 tests only the
size, not membership of the key. -/
theorem cachePut_present_evicts_cex :
    dictGet fullCache "5" = some defaultResult ∧
    dictGet fullCache "0" = some defaultResult ∧
    (cachePut fullCache "5" otherResult).map (fun c => dictGet c "0") =
      some none := by
  exact ⟨by decide, by decide, by decide⟩

/-- C5 (amended): for a cache below capacity with distinct keys, a put of
an already-present key `k` overwrites in place: the result has the same
keys in the same order (so `k`'s eviction position is unchanged), the same
size, exactly one entry for `k` now holding the new value, and every other
key's value unchanged.  At capacity the code first evicts the oldest entry
even when `k` is present (see the counterexample). -/
theorem cachePut_overwrite_in_place (c : Cache) (k : String)
    (v v₀ : AnalysisResult)
    (hpres : dictGet c k = some v₀) (hlt : c.length < MAX_CACHE_SIZE)
    (hnd : (c.map Prod.fst).Nodup) :
    cachePut c k v = some (dictSet c k v) ∧
    (dictSet c k v).map Prod.fst = c.map Prod.fst ∧
    (dictSet c k v).length = c.length ∧
    dictGet (dictSet c k v) k = some v ∧
    ((dictSet c k v).map Prod.fst).count k = 1 ∧
    (∀ k', k' ≠ k → dictGet (dictSet c k v) k' = dictGet c k') := by
  have hkeys := dictSet_keys_present c k v v₀ hpres
  refine ⟨?_, hkeys, dictSet_length_present c k v v₀ hpres,
    dictGet_dictSet_self c k v, ?_, fun k' hk' => dictGet_dictSet_ne c k k' v hk'⟩
  · unfold cachePut
    rw [if_neg (by omega)]
  · rw [hkeys]
    exact List.count_eq_one_of_mem hnd (mem_keys_of_dictGet hpres)

/-- Witness for C5: the amended theorem applied to a one-entry cache whose
single key is overwritten. -/
theorem cachePut_overwrite_in_place_witness :
    cachePut [("f", defaultResult)] "f" otherResult =
      some (dictSet [("f", defaultResult)] "f" otherResult) ∧
    (dictSet [("f", defaultResult)] "f" otherResult).map Prod.fst =
      ([("f", defaultResult)] : Cache).map Prod.fst ∧
    (dictSet [("f", defaultResult)] "f" otherResult).length =
      ([("f", defaultResult)] : Cache).length ∧
    dictGet (dictSet [("f", defaultResult)] "f" otherResult) "f" =
      some otherResult ∧
    ((dictSet [("f", defaultResult)] "f" otherResult).map Prod.fst).count "f" = 1 ∧
    (∀ k', k' ≠ "f" →
      dictGet (dictSet [("f", defaultResult)] "f" otherResult) k' =
        dictGet [("f", defaultResult)] k') :=
  cachePut_overwrite_in_place [("f", defaultResult)] "f" otherResult
    defaultResult rfl (by decide) (by decide)

/-- Counterexample for C6: the malformed position "not-a-fen" (rejected by
the position parser) is answered with HTTP 500, not the HTTP 400 the claim
requires for all invalid positions — `chess.Board(fen)` raises at line 104
and the generic handler of lines 134-135 converts it to a 500. -/
theorem invalid_fen_http500_cex :
    noParse "not-a-fen" = false ∧
    (analyze failWorld noParse (some (some "not-a-fen")) s₀).1.status = 500 ∧
    ¬ (analyze failWorld noParse (some (some "not-a-fen")) s₀).1.status = 400 := by
  exact ⟨rfl, rfl, by decide⟩

/-- C6 (amended): a missing or unparseable body and an absent or empty fen
are rejected with HTTP 400; a non-empty uncached fen that does not parse
as a position is rejected with HTTP 500 (not 400); in every such case the
returned state equals the input state, so the engine is never invoked and
the cache is not modified. -/
theorem invalid_input_rejected (w : EngineWorld) (p : String → Bool)
    (s : ServerState) :
    (analyze w p none s = (.err 400 "Invalid JSON", s)) ∧
    (∀ fenOpt : Option String, fenOpt.getD "" = "" →
      analyze w p (some fenOpt) s = (.err 400 "No FEN provided", s)) ∧
    (∀ fen : String, fen ≠ "" → dictGet s.cache fen = none → p fen = false →
      (analyze w p (some (some fen)) s).1.status = 500 ∧
      (analyze w p (some (some fen)) s).2 = s) := by
  refine ⟨rfl, fun fenOpt h => ?_, fun fen hfen hmiss hparse => ?_⟩
  · unfold analyze
    dsimp only
    rw [if_pos h]
  · unfold analyze
    simp only [Option.getD_some]
    rw [if_neg hfen, hmiss, hparse]
    exact ⟨rfl, rfl⟩

/-- Witness for C6: the theorem applied to the all-failing environment with
the all-rejecting parser on the empty initial state. -/
theorem invalid_input_rejected_witness :
    (analyze failWorld noParse none s₀ = (.err 400 "Invalid JSON", s₀)) ∧
    (∀ fenOpt : Option String, fenOpt.getD "" = "" →
      analyze failWorld noParse (some fenOpt) s₀ = (.err 400 "No FEN provided", s₀)) ∧
    (∀ fen : String, fen ≠ "" → dictGet s₀.cache fen = none → noParse fen = false →
      (analyze failWorld noParse (some (some fen)) s₀).1.status = 500 ∧
      (analyze failWorld noParse (some (some fen)) s₀).2 = s₀) :=
  invalid_input_rejected failWorld noParse s₀

/-- C7: when a miss-path `analyze` succeeds, the returned evaluation is the
white-perspective conversion of the engine's reported score; a forced-mate
score yields exactly +10000 when the mate favors White and exactly -10000
otherwise — magnitude exactly 10000 regardless of the mate distance — and
a non-mate score is returned as its white-perspective centipawn value. -/
theorem mate_sentinel_evaluation (w : EngineWorld) (p : String → Bool)
    (fen : String) (s s₁ : ServerState) (sc : PovScore) (mv : String)
    (hfen : fen ≠ "") (hmiss : dictGet s.cache fen = none)
    (hparse : p fen = true)
    (hlock : lockedEvaluate w s = (some (sc, mv), s₁)) :
    ∃ r : AnalysisResult,
      (analyze w p (some (some fen)) s).1 = .ok r ∧
      r.evaluation = scoreToEval sc.white ∧
      (∀ n : Int, sc.white = .mate n →
        (r.evaluation = if mateFavorsWhite sc.white = true then 10000 else -10000) ∧
        r.evaluation.natAbs = 10000) ∧
      (∀ cpv : Int, sc.white = .cp cpv → r.evaluation = cpv) := by
  obtain ⟨c', hput⟩ := Option.isSome_iff_exists.mp
    (cachePut_isSome s₁.cache fen
      { bestmove := mv, evaluation := scoreToEval sc.white,
        fen := fen, cached := false })
  refine ⟨_, by rw [analyze_miss_ok w p fen s s₁ c' sc mv hfen hmiss hparse hlock hput],
    rfl, fun n hn => ?_, fun cpv hcp => ?_⟩
  · rw [hn]
    dsimp only [scoreToEval, mateFavorsWhite]
    by_cases h : (0 : Int) < n
    · rw [if_pos h]
      simp [h]
    · rw [if_neg h]
      simp [h]
  · rw [hcp]
    rfl

/-- Witness for C7: the theorem applied to the always-succeeding
environment reporting 25 centipawns for White. -/
theorem mate_sentinel_evaluation_witness :
    ∃ r : AnalysisResult,
      (analyze okWorld allParse (some (some "f")) s₀).1 = .ok r ∧
      r.evaluation = scoreToEval (PovScore.white { rel := .cp 25, turn := .white }) ∧
      (∀ n : Int, PovScore.white { rel := .cp 25, turn := .white } = .mate n →
        (r.evaluation = if mateFavorsWhite (PovScore.white { rel := .cp 25, turn := .white }) = true then 10000 else -10000) ∧
        r.evaluation.natAbs = 10000) ∧
      (∀ cpv : Int, PovScore.white { rel := .cp 25, turn := .white } = .cp cpv → r.evaluation = cpv) :=
  mate_sentinel_evaluation okWorld allParse "f" s₀
    { cache := [], nAnalyse := 1, nPlay := 1, nInit := 0 }
    { rel := .cp 25, turn := .white } "e2e4" (by decide) rfl rfl rfl

/-- C8: the first successful `analyze` of an uncached fen is a miss that
invokes the engine exactly once (one `analyse` and one `play` call, no
restart) and returns `cached = false`; a second call with the identical
fen is a hit that returns the same bestmove and evaluation tagged
`cached = true` and leaves the state — including every engine-call
counter — unchanged, so zero additional engine invocations occur. -/
theorem first_miss_then_hit (w : EngineWorld) (p : String → Bool)
    (fen : String) (s : ServerState) (sc : PovScore) (mv : String)
    (hfen : fen ≠ "") (hmiss : dictGet s.cache fen = none)
    (hparse : p fen = true)
    (ha : w.analyseOutcome s.nAnalyse = some sc)
    (hp : w.playOutcome s.nPlay = some mv) :
    ∃ r : AnalysisResult, ∃ s' : ServerState,
      analyze w p (some (some fen)) s = (.ok r, s') ∧
      r.cached = false ∧ r.bestmove = mv ∧
      r.evaluation = scoreToEval sc.white ∧
      s'.nAnalyse = s.nAnalyse + 1 ∧ s'.nPlay = s.nPlay + 1 ∧
      s'.nInit = s.nInit ∧
      analyze w p (some (some fen)) s' = (.ok { r with cached := true }, s') := by
  have hlock := lockedEvaluate_first_ok w s sc mv ha hp
  obtain ⟨c', hput⟩ := Option.isSome_iff_exists.mp
    (cachePut_isSome s.cache fen
      { bestmove := mv, evaluation := scoreToEval sc.white,
        fen := fen, cached := false })
  refine ⟨_, _, analyze_miss_ok w p fen s _ c' sc mv hfen hmiss hparse hlock hput,
    rfl, rfl, rfl, rfl, rfl, rfl, ?_⟩
  exact analyze_hit w p fen _ _ hfen (dictGet_cachePut_self _ fen _ c' hput)

/-- Witness for C8: the theorem applied to the always-succeeding
environment on the fen "startpos". -/
theorem first_miss_then_hit_witness :
    ∃ r : AnalysisResult, ∃ s' : ServerState,
      analyze okWorld allParse (some (some "startpos")) s₀ = (.ok r, s') ∧
      r.cached = false ∧ r.bestmove = "e2e4" ∧
      r.evaluation = scoreToEval (PovScore.white { rel := .cp 25, turn := .white }) ∧
      s'.nAnalyse = s₀.nAnalyse + 1 ∧ s'.nPlay = s₀.nPlay + 1 ∧
      s'.nInit = s₀.nInit ∧
      analyze okWorld allParse (some (some "startpos")) s' =
        (.ok { r with cached := true }, s') :=
  first_miss_then_hit okWorld allParse "startpos" s₀
    { rel := .cp 25, turn := .white } "e2e4" (by decide) rfl rfl rfl rfl

/-- C9: on a cache hit `analyze` returns a defensive copy sharing no
mutable state with the stored entry: the returned record lives at a fresh
reference distinct from the stored entry's, the `cached = True` mutation
of line 101 touches only that fresh reference, the stored entry and every
other heap cell are unchanged, and the cache's key table — its contents
and eviction order — is unchanged. -/
theorem cache_hit_returns_copy (st : RefHeap) (fen : String) (r₀ : Nat)
    (a : AnalysisResult)
    (href : lookupRef st.refsCache fen = some r₀)
    (hval : st.heap r₀ = some a) (hlt : r₀ < st.next) :
    ∃ st' r₁, hitPath st fen = some (st', r₁) ∧
      r₁ ≠ r₀ ∧
      st'.heap r₀ = some a ∧
      st'.heap r₁ = some { a with cached := true } ∧
      st'.refsCache = st.refsCache ∧
      (∀ j, j ≠ r₁ → st'.heap j = st.heap j) := by
  have hpath : hitPath st fen = some
      ({ heap := Function.update (Function.update st.heap st.next (some a))
           st.next (some { a with cached := true }),
         next := st.next + 1, refsCache := st.refsCache }, st.next) := by
    simp only [hitPath, href, hval]
  refine ⟨_, st.next, hpath, by omega, ?_, ?_, rfl, fun j hj => ?_⟩
  · dsimp only
    rw [Function.update_noteq (by omega : r₀ ≠ st.next),
        Function.update_noteq (by omega : r₀ ≠ st.next)]
    exact hval
  · dsimp only
    rw [Function.update_same]
  · dsimp only
    rw [Function.update_noteq hj, Function.update_noteq hj]

/-- Witness for C9: the theorem applied to a heap holding one stored entry
for the fen "f" at reference 0. -/
theorem cache_hit_returns_copy_witness :
    ∃ st' r₁, hitPath hitHeap "f" = some (st', r₁) ∧
      r₁ ≠ 0 ∧
      st'.heap 0 = some defaultResult ∧
      st'.heap r₁ = some { defaultResult with cached := true } ∧
      st'.refsCache = hitHeap.refsCache ∧
      (∀ j, j ≠ r₁ → st'.heap j = hitHeap.heap j) :=
  cache_hit_returns_copy hitHeap "f" 0 defaultResult rfl rfl (by decide)


/-- C10: the eviction branch runs only when the cache holds at least
`MAX_CACHE_SIZE` = 512 > 0 entries, in which case taking the first key and
popping it always succeeds and removes exactly one entry; `cachePut`
therefore never fails, and an insert never changes the cache size by more
than one in either direction. -/
theorem eviction_safety (c : Cache) (k : String) (v : AnalysisResult) :
    (MAX_CACHE_SIZE ≤ c.length →
      ∃ c₀, evictOldest c = some c₀ ∧ c₀.length + 1 = c.length) ∧
    (cachePut c k v).isSome = true ∧
    (∀ c', cachePut c k v = some c' →
      c'.length ≤ c.length + 1 ∧ c.length ≤ c'.length + 1) := by
  refine ⟨fun hge => ?_, cachePut_isSome c k v, fun c' hput => ?_⟩
  · cases c with
    | nil => simp [MAX_CACHE_SIZE] at hge
    | cons e t => exact ⟨t, rfl, by simp⟩
  · unfold cachePut at hput
    split at hput
    · rename_i h
      cases c with
      | nil => simp [evictOldest] at hput
      | cons e t =>
        simp only [evictOldest] at hput
        injection hput with h'
        subst h'
        have h₁ := dictSet_length_le t k v
        have h₂ := dictSet_length_ge t k v
        simp only [List.length_cons]
        omega
    · injection hput with h'
      subst h'
      have h₁ := dictSet_length_le c k v
      have h₂ := dictSet_length_ge c k v
      omega

set_option maxRecDepth 8192 in
/-- Witness for C10: the eviction part applied to the full 512-entry
cache, and the size-delta part applied to an insert into the empty
cache. -/
theorem eviction_safety_witness :
    (∃ c₀, evictOldest fullCache = some c₀ ∧ c₀.length + 1 = fullCache.length) ∧
    (([("a", defaultResult)] : Cache).length ≤ ([] : Cache).length + 1 ∧
     ([] : Cache).length ≤ ([("a", defaultResult)] : Cache).length + 1) :=
  ⟨(eviction_safety fullCache "a" defaultResult).1 (by decide),
   (eviction_safety [] "a" defaultResult).2.2 [("a", defaultResult)] rfl⟩
